import Mathlib

/-!
Verification of the tilesheet manager (`src/tilesheets.rs`): a shallow
embedding of the tile position allocator, the atlas composer (`Sheet`),
and the reconciliation pipeline (`TilesheetManager`), together with
proofs about the spec's claims.

Modelling conventions:
* Rust `HashMap` / `HashSet` state is modelled by association lists whose
  observable behaviour (lookup / remove / insert-overwrite) matches the
  hash map's; `lookupA` and `eraseKey` below are the observation functions.
* Machine integers (`u32`, `u64`) are modelled by `Nat`.  In the allocator
  the ring and offset components of the cursor are proved to stay below
  64 and 127 respectively, so no `u32` overflow is reachable there; the
  layer component only ever increments.
* Effectful code (filesystem walk, stdin, the remote registry) is modelled
  by passing the external data in as explicit arguments, and `exit(1)` /
  `panic!` are modelled by `Except` / `Option` results.
-/

namespace FtbRs

/-! ### Association-list observation functions for `HashMap` -/

/-- Observable behaviour of `HashMap::get`: first binding for the key wins
(insertions are modelled by prepending, which matches overwrite). -/
def lookupA [DecidableEq α] : List (α × β) → α → Option β
  | [], _ => none
  | kv :: l, a => if kv.1 = a then some kv.2 else lookupA l a

/-- Observable behaviour of `HashMap::remove`: drop every binding of the key. -/
def eraseKey [DecidableEq α] (k : α) : List (α × β) → List (α × β)
  | [] => []
  | kv :: l => if kv.1 = k then eraseKey k l else kv :: eraseKey k l

theorem lookupA_nil [DecidableEq α] (a : α) : lookupA ([] : List (α × β)) a = none := rfl

theorem lookupA_cons [DecidableEq α] (kv : α × β) (l : List (α × β)) (a : α) :
    lookupA (kv :: l) a = if kv.1 = a then some kv.2 else lookupA l a := rfl

theorem lookupA_eraseKey_self [DecidableEq α] (k : α) (l : List (α × β)) :
    lookupA (eraseKey k l) k = none := by
  induction l with
  | nil => rfl
  | cons kv l ih =>
    by_cases h : kv.1 = k
    · simp [eraseKey, h, ih]
    · simp [eraseKey, lookupA, h, ih]

theorem lookupA_eraseKey_ne [DecidableEq α] (k a : α) (l : List (α × β)) (h : a ≠ k) :
    lookupA (eraseKey k l) a = lookupA l a := by
  induction l with
  | nil => rfl
  | cons kv l ih =>
    have hka : ¬ (k = a) := fun hh => h hh.symm
    by_cases hk : kv.1 = k
    · simp [eraseKey, hk, lookupA, hka, ih]
    · simp [eraseKey, hk, lookupA, ih]

theorem mem_keys_of_lookupA_isSome [DecidableEq α] {l : List (α × β)} {a : α}
    (h : (lookupA l a).isSome) : a ∈ l.map Prod.fst := by
  induction l with
  | nil => simp [lookupA] at h
  | cons kv l ih =>
    by_cases hk : kv.1 = a
    · simp [hk]
    · simp only [lookupA, hk, if_false] at h
      simp [ih h]

/-! ### Core data model -/

/-- `TilePos` from the source: an `(x, y, z)` grid coordinate. -/
structure TilePos where
  x : Nat
  y : Nat
  z : Nat
deriving DecidableEq

/-- `Tile` from the source: an allocated position plus the registry id
(`None` for freshly allocated, not yet committed tiles). -/
structure Tile where
  pos : TilePos
  id : Option Nat
deriving DecidableEq

/-- The allocator cursor, the source's `next : (u32, u32, u32)` tuple;
`ring = next.0`, `offset = next.1`, `layer = next.2` (names chosen from
how the components are used). -/
@[ext]
structure Cursor where
  ring : Nat
  offset : Nat
  layer : Nat
deriving DecidableEq

/-! ### Tile position allocator (`TilesheetManager::lookup`'s loop) -/

/-- The candidate position computed at the top of the `loop` in `lookup`:
`if next.1 < next.0 { (next.1, next.0, next.2) } else { (next.0, next.1 - next.0, next.2) }`. -/
def candidate (c : Cursor) : TilePos :=
  if c.offset < c.ring then
    { x := c.offset, y := c.ring, z := c.layer }
  else
    { x := c.ring, y := c.offset - c.ring, z := c.layer }

/-- The cursor advance performed when the candidate is occupied:
`next.1 += 1; if next.1 > next.0 * 2 { next.0 += 1; next.1 = 0; if next.0 == 64 { next.0 = 0; next.2 += 1 } }`. -/
def advance (c : Cursor) : Cursor :=
  let o := c.offset + 1
  if o > c.ring * 2 then
    let r := c.ring + 1
    if r = 64 then { ring := 0, offset := 0, layer := c.layer + 1 }
    else { ring := r, offset := 0, layer := c.layer }
  else { ring := c.ring, offset := o, layer := c.layer }

/-- The spec's wording of the candidate step: "if `offset < ring`, candidate
`= (offset, ring)`; otherwise candidate `= (ring, offset − ring)`", at the
cursor's layer. -/
def specCandidate (c : Cursor) : TilePos :=
  if c.offset < c.ring then
    { x := c.offset, y := c.ring, z := c.layer }
  else
    { x := c.ring, y := c.offset - c.ring, z := c.layer }

/-- The spec's wording of the advance step: "increment `offset`; when `offset`
exceeds `2·ring`, reset `offset` to 0 and increment `ring`; when `ring`
reaches 64, reset `ring` to 0 and advance to the next `layer`". -/
def specAdvance (c : Cursor) : Cursor :=
  if 2 * c.ring < c.offset + 1 then
    if c.ring + 1 = 64 then { ring := 0, offset := 0, layer := c.layer + 1 }
    else { ring := c.ring + 1, offset := 0, layer := c.layer }
  else { ring := c.ring, offset := c.offset + 1, layer := c.layer }

/-- Invariant on reachable cursors: the ring stays below 64 and the offset
never exceeds twice the ring.  It holds for the initial cursor `(0,0,0)` and
is preserved by `advance`. -/
def GoodCursor (c : Cursor) : Prop :=
  c.ring ≤ 63 ∧ c.offset ≤ 2 * c.ring

instance (c : Cursor) : Decidable (GoodCursor c) := by
  unfold GoodCursor; infer_instance

/-- Linearisation of a good cursor, strictly increasing along `advance`. -/
def measureC (c : Cursor) : Nat :=
  c.layer * 16384 + c.ring * 128 + c.offset

/-- The occupancy search loop of `lookup`, with explicit fuel (the Rust loop
is unbounded; `searchLoop_isSome` below shows fuel `entries.length + 1`
always suffices from a good cursor).  On success the loop breaks with the
accepted position and the cursor left pointing at it, exactly as `break pos`
leaves `self.next`. -/
def searchLoop : Nat → Cursor → List (TilePos × String) → Option (TilePos × Cursor)
  | 0, _, _ => none
  | fuel + 1, c, entries =>
    let pos := candidate c
    if (lookupA entries pos).isSome then searchLoop fuel (advance c) entries
    else some (pos, c)

/-! ### Atlas composer: images and `Sheet`

An image buffer is modelled by its dimensions and a total pixel function
(pixel values abstracted to `Nat`, standing for an RGBA quadruple; reads
outside the bounds are never observed).  `ImageBuffer::new` zero-fills, so
the blank pixel is `0`. -/

structure Img where
  width : Nat
  height : Nat
  pix : Nat → Nat → Nat

/-- `ImageBuffer::new(w, h)`: a zero-filled (blank) buffer. -/
def blankImg (w h : Nat) : Img :=
  { width := w, height := h, pix := fun _ _ => 0 }

/-- `Sheet` from the source: one output resolution with one buffer per layer. -/
structure Sheet where
  size : Nat
  layers : List Img

/-- `Sheet::new(size)`. -/
def Sheet.new (size : Nat) : Sheet :=
  { size := size, layers := [] }

/-- `Sheet::grow(w, h, z)` acting on the single layer it rewrites: allocate a
new `w × h` buffer, copy every old pixel at its original coordinate, and
replace the layer.  `put_pixel` would panic if an old pixel fell outside the
new bounds, hence the `none` case (unreachable from `insert`, which only
grows). -/
def Sheet.growLayer (old : Img) (w h : Nat) : Option Img :=
  if old.width = 0 ∨ old.height = 0 ∨ (old.width ≤ w ∧ old.height ≤ h) then
    some { width := w, height := h,
           pix := fun a b => if a < old.width ∧ b < old.height then old.pix a b else 0 }
  else none

/-- The layer list `insert` operates on: `if z as usize == self.layers.len()
{ self.add_layer(); }` appends a fresh blank `size × size` buffer. -/
def effLayers (s : Sheet) (p : TilePos) : List Img :=
  if p.z = s.layers.length then s.layers ++ [blankImg s.size s.size] else s.layers

/-- The growth step of `insert`: with `(w, h)` the current dimensions and
`(nw, nh) = ((x+1)*size, (y+1)*size)`, grow to
`(max(w, max(nw, w)), max(h, max(nh, h)))` when `nw > w || nh > h`,
otherwise keep the layer. -/
def grownLayer (size : Nat) (p : TilePos) (L : Img) : Option Img :=
  if (p.x + 1) * size > L.width ∨ (p.y + 1) * size > L.height then
    Sheet.growLayer L (max L.width (max ((p.x + 1) * size) L.width))
      (max L.height (max ((p.y + 1) * size) L.height))
  else some L

/-- The final write loop of `insert`: `for (xx, yy, &pix) in
img.enumerate_pixels() { layer.put_pixel(x + xx, y + yy, pix) }`, as a
functional override of the block at `(x0, y0)` sized like `tile`. -/
def writeBlock (tile : Img) (x0 y0 : Nat) (base : Img) : Img :=
  { width := base.width, height := base.height,
    pix := fun a b =>
      if x0 ≤ a ∧ a < x0 + tile.width ∧ y0 ≤ b ∧ b < y0 + tile.height then
        tile.pix (a - x0) (b - y0)
      else base.pix a b }

/-- `Sheet::insert(pos, img)`.  The color collaborators `resize` and
`encode_srgb` live outside this file's source, so they are passed in as
explicit function arguments (`resizeF`, `encodeF`); the write loop is
faithful to whatever dimensions they return.  `none` models the panics:
the `assert_eq!(width, height)`, an out-of-range layer index, a shrinking
grow, and an out-of-bounds `put_pixel` of the resampled block. -/
def Sheet.insert (resizeF : Img → Nat → Nat → Img) (encodeF : Img → Img)
    (s : Sheet) (p : TilePos) (img : Img) : Option Sheet :=
  if img.width ≠ img.height then none
  else
    let tile := encodeF (resizeF img s.size s.size)
    match (effLayers s p)[p.z]? with
    | none => none
    | some L =>
      match grownLayer s.size p L with
      | none => none
      | some L1 =>
        if p.x * s.size + tile.width ≤ L1.width ∧
            p.y * s.size + tile.height ≤ L1.height then
          some { s with layers :=
            (effLayers s p).set p.z (writeBlock tile (p.x * s.size) (p.y * s.size) L1) }
        else none

/-- A sequence of inserts into one sheet, stopping at the first panic. -/
def insertSeq (resizeF : Img → Nat → Nat → Img) (encodeF : Img → Img)
    (s : Sheet) : List (TilePos × Img) → Option Sheet
  | [] => some s
  | (p, img) :: rest =>
    match Sheet.insert resizeF encodeF s p img with
    | none => none
    | some s' => insertSeq resizeF encodeF s' rest

/-! ### The reconciliation engine state -/

/-- `TilesheetManager` state (the `mw` client and output `paths` are external
collaborators and are not part of the verified state). -/
structure TilesheetManager where
  tiles : List (String × Tile)
  entries : List (TilePos × String)
  renames : List (String × String)
  added : List String
  missing : List String
  deleted : List Nat
  tilesheets : List Sheet
  next : Cursor

/-- `TilesheetManager::new`, with the renames map and the sheets obtained by
`import_tilesheets` (remote data / stdin) passed in explicitly. -/
def initManager (renames : List (String × String)) (sheets : List Sheet) : TilesheetManager :=
  { tiles := [], entries := [], renames := renames, added := [], missing := [],
    deleted := [], tilesheets := sheets, next := { ring := 0, offset := 0, layer := 0 } }

/-- One row returned by the registry's tile query. -/
structure RemoteRow where
  x : Nat
  y : Nat
  z : Nat
  id : Nat
  name : String
deriving DecidableEq

/-- Position of a remote row. -/
def RemoteRow.pos (r : RemoteRow) : TilePos :=
  { x := r.x, y := r.y, z := r.z }

/-- The body of the `import_tiles` loop for one successfully queried row. -/
def importRow (m : TilesheetManager) (r : RemoteRow) : TilesheetManager :=
  { m with
    tiles := (r.name, { pos := r.pos, id := some r.id }) :: m.tiles,
    entries := (r.pos, r.name) :: m.entries,
    missing := m.missing.insert r.name }

/-- `TilesheetManager::import_tiles`, with the queried rows passed in
(rows whose query errored are logged and skipped by the source, so they
simply do not appear in the list). -/
def import_tiles (m : TilesheetManager) (rows : List RemoteRow) : TilesheetManager :=
  rows.foldl importRow m

/-! ### `TilesheetManager::lookup` -/

/-- `TilesheetManager::lookup`: an existing assignment is returned unchanged;
otherwise the spiral search runs and the accepted position is recorded in
both `tiles` and `entries` before returning.  `none` models fuel exhaustion
of the embedded loop, which `lookup_isSome` proves unreachable from a good
cursor. -/
def TilesheetManager.lookup (m : TilesheetManager) (name : String) :
    Option (TilePos × TilesheetManager) :=
  match lookupA m.tiles name with
  | some tile => some (tile.pos, m)
  | none =>
    match searchLoop (m.entries.length + 1) m.next m.entries with
    | none => none
    | some (pos, c) =>
      some (pos, { m with
        next := c,
        tiles := (name, { pos := pos, id := none }) :: m.tiles,
        entries := (pos, name) :: m.entries })

/-- A sequence of allocations: `lookup` each name in order, collecting the
returned positions. -/
def allocSeq (m : TilesheetManager) : List String → Option (List TilePos × TilesheetManager)
  | [] => some ([], m)
  | n :: ns =>
    match m.lookup n with
    | none => none
    | some (p, m') =>
      match allocSeq m' ns with
      | none => none
      | some (ps, m'') => some (p :: ps, m'')

/-! ### Scan, confirmation, deletions, compose -/

/-- One entry met by the `WalkDir` walk: the file's stem, extension, whether
it is a regular file, and (for the compose phase) its decoded raster. -/
structure FsEntry where
  stem : String
  ext : String
  isFile : Bool
  img : Img

/-- `name.contains(&['_', '[', ']'][..])`: some character of the name is an
underscore or a square bracket. -/
def illegalName (s : String) : Bool :=
  s.data.any fun c => c = '_' || c = '[' || c = ']'

/-- Resolution of a file stem through the renames map: a rename to the empty
string means "ignore this file" (`none`); no entry keeps the stem. -/
def resolveName (renames : List (String × String)) (stem : String) : Option String :=
  match lookupA renames stem with
  | some n => if n = "" then none else some n
  | none => some stem

/-- Errors terminating a run: `exit(1)` on an illegal name, `exit(1)` at the
confirmation gate, or a Rust panic.  Each carries the manager state at the
moment the process dies. -/
inductive RunError where
  | illegalName (name : String)
  | aborted
  | panicked
deriving DecidableEq

/-- The body of the `check_changes` walk for one directory entry. -/
def checkFile (m : TilesheetManager) (f : FsEntry) : Except (RunError × TilesheetManager) TilesheetManager :=
  if !f.isFile then .ok m
  else if f.ext ≠ "png" then .ok m
  else
    match resolveName m.renames f.stem with
    | none => .ok m
    | some name =>
      if illegalName name then .error (.illegalName name, m)
      else .ok { m with
        missing := m.missing.filter (fun x => x != name),
        added := if (lookupA m.tiles name).isSome then m.added else m.added ++ [name] }

/-- `TilesheetManager::check_changes`, over the walked directory entries. -/
def check_changes (m : TilesheetManager) : List FsEntry → Except (RunError × TilesheetManager) TilesheetManager
  | [] => .ok m
  | f :: fs =>
    match checkFile m f with
    | .error e => .error e
    | .ok m' => check_changes m' fs

/-- ASCII whitespace, the characters `str::trim` strips on ASCII input. -/
def isWs (c : Char) : Bool :=
  c = ' ' || c = '\t' || c = '\n' || c = '\r'

/-- Rust's `str::trim`, modelled at the ASCII level: strip whitespace from
both ends. -/
def rustTrim (s : String) : String :=
  String.mk (((s.data.dropWhile isWs).reverse.dropWhile isWs).reverse)

/-- Rust's `str::to_lowercase`, modelled at the ASCII level: lowercase each
character. -/
def rustLower (s : String) : String :=
  String.mk (s.data.map Char.toLower)

/-- `TilesheetManager::confirm_changes`, with the line read from stdin passed
in: anything whose trimmed, lowercased form differs from `"continue"` aborts
(`exit(1)`). -/
def confirm_changes (m : TilesheetManager) (input : String) :
    Except (RunError × TilesheetManager) TilesheetManager :=
  if rustLower (rustTrim input) ≠ "continue" then .error (.aborted, m) else .ok m

/-- One line of `record_deletions`: a missing name is reported and skipped;
a found tile is removed from the table, its id unwrapped (panic if absent)
and pushed to `deleted`, and its position freed. -/
def deleteOne (m : TilesheetManager) (name : String) :
    Except (RunError × TilesheetManager) TilesheetManager :=
  match lookupA m.tiles name with
  | none => .ok m
  | some tile =>
    let m₁ := { m with tiles := eraseKey name m.tiles }
    match tile.id with
    | none => .error (.panicked, m₁)
    | some i =>
      .ok { m₁ with deleted := m₁.deleted ++ [i], entries := eraseKey tile.pos m₁.entries }

/-- `TilesheetManager::record_deletions`, over the lines of `todelete.txt`. -/
def record_deletions (m : TilesheetManager) : List String → Except (RunError × TilesheetManager) TilesheetManager
  | [] => .ok m
  | n :: ns =>
    match deleteOne m n with
    | .error e => .error e
    | .ok m' => record_deletions m' ns

/-- Insert one resampled tile into every configured sheet (`for tilesheet in
&mut self.tilesheets`), propagating panics. -/
def insertAll (resizeF : Img → Nat → Nat → Img) (encodeF : Img → Img) :
    List Sheet → TilePos → Img → Option (List Sheet)
  | [], _, _ => some []
  | s :: rest, p, img =>
    match Sheet.insert resizeF encodeF s p img with
    | none => none
    | some s' =>
      match insertAll resizeF encodeF rest p img with
      | none => none
      | some rest' => some (s' :: rest')

/-- The body of the `update` walk for one directory entry.  `fix_translucent`
and `decode_srgb` are color collaborators outside this file's source, passed
in as `fixF` and `decodeF`. -/
def updateFile (fixF decodeF : Img → Img) (resizeF : Img → Nat → Nat → Img) (encodeF : Img → Img)
    (m : TilesheetManager) (f : FsEntry) : Except (RunError × TilesheetManager) TilesheetManager :=
  if !f.isFile then .ok m
  else if f.ext ≠ "png" then .ok m
  else
    match resolveName m.renames f.stem with
    | none => .ok m
    | some name =>
      if illegalName name then .error (.illegalName name, m)
      else
        let img := decodeF (fixF f.img)
        match m.lookup name with
        | none => .error (.panicked, m)
        | some (pos, m') =>
          match insertAll resizeF encodeF m'.tilesheets pos img with
          | none => .error (.panicked, m')
          | some sheets => .ok { m' with tilesheets := sheets }

/-- `TilesheetManager::update`, over the walked directory entries. -/
def update (fixF decodeF : Img → Img) (resizeF : Img → Nat → Nat → Img) (encodeF : Img → Img)
    (m : TilesheetManager) : List FsEntry → Except (RunError × TilesheetManager) TilesheetManager
  | [] => .ok m
  | f :: fs =>
    match updateFile fixF decodeF resizeF encodeF m f with
    | .error e => .error e
    | .ok m' => update fixF decodeF resizeF encodeF m' fs

/-- One reconciliation run up to the compose phase, in the order of
`update_tilesheet`: import the registry rows, scan (`check_changes`), gate
(`confirm_changes`), apply deletions (`record_deletions`), then allocate and
compose (`update`).  The remote handoff (`delete_tiles` / `add_tiles`) uses
the resulting `deleted` / `added` / `tiles` fields and happens only on
`.ok`. -/
def runPipeline (renames : List (String × String)) (sheets : List Sheet)
    (rows : List RemoteRow) (files : List FsEntry) (confirmInput : String)
    (todelete : List String) (fixF decodeF : Img → Img)
    (resizeF : Img → Nat → Nat → Img) (encodeF : Img → Img) :
    Except (RunError × TilesheetManager) TilesheetManager :=
  let m := import_tiles (initManager renames sheets) rows
  match check_changes m files with
  | .error e => .error e
  | .ok m₁ =>
    match confirm_changes m₁ confirmInput with
    | .error e => .error e
    | .ok m₂ =>
      match record_deletions m₂ todelete with
      | .error e => .error e
      | .ok m₃ => update fixF decodeF resizeF encodeF m₃ files

/-- The mutual-inverse invariant between the tile table and the position
index: every live binding `name ↦ tile` is mirrored by `tile.pos ↦ name`
and vice versa. -/
def Inverse (m : TilesheetManager) : Prop :=
  (∀ n t, lookupA m.tiles n = some t → lookupA m.entries t.pos = some n) ∧
  (∀ p n, lookupA m.entries p = some n → ∃ t, lookupA m.tiles n = some t ∧ t.pos = p)

/-! ### `load_renames` -/

/-- Split a character list at its last `'='`, the effect of matching the
greedy regex `(.*)=(.*)` against a line: `none` exactly when the line has no
`'='`. -/
def splitLastEq : List Char → Option (List Char × List Char)
  | [] => none
  | c :: rest =>
    match splitLastEq rest with
    | some (a, b) => some (c :: a, b)
    | none => if c = '=' then some ([], rest) else none

/-- The per-line regex match of `load_renames`: capture groups 1 and 2 of
`(.*)=(.*)`, or `none` (warn and skip) when the line does not match. -/
def rustCaptures (line : String) : Option (String × String) :=
  match splitLastEq line.data with
  | some (a, b) => some (String.mk a, String.mk b)
  | none => none

/-- Split a character list at every `'\n'` (keeping a trailing empty piece
when the list ends in `'\n'`). -/
def splitNl : List Char → List (List Char)
  | [] => [[]]
  | c :: rest =>
    if c = '\n' then [] :: splitNl rest
    else
      match splitNl rest with
      | l :: ls => (c :: l) :: ls
      | [] => [[c]]

/-- Strip one trailing `'\r'` (the `\r\n` line-ending case). -/
def stripCr (l : List Char) : List Char :=
  if l.getLast? = some '\r' then l.dropLast else l

/-- Rust's `str::lines`: split at `'\n'`, drop the optional final empty
line, and strip one trailing `'\r'` from each line. -/
def rustLines (s : String) : List String :=
  let parts := splitNl s.data
  let parts := if parts.getLast? = some [] then parts.dropLast else parts
  parts.map fun l => String.mk (stripCr l)

/-- `HashMap` built by `collect()`: insert each pair in order, later pairs
overwriting earlier ones. -/
def collectMap (l : List (String × String)) : List (String × String) :=
  l.foldl (fun acc kv => kv :: eraseKey kv.1 acc) []

/-- `load_renames`: `none` models a failed `File::open` (warn, empty map);
otherwise the file content is split into lines, each line matched against
`(.*)=(.*)` (non-matching lines are warned about and skipped) and the
matches collected into a map. -/
def load_renames (file : Option String) : List (String × String) :=
  match file with
  | none => []
  | some s => collectMap ((rustLines s).filterMap rustCaptures)

/-! ### Lemmas about the allocator cursor -/

theorem candidate_eq_specCandidate (c : Cursor) : candidate c = specCandidate c := rfl

theorem advance_eq_specAdvance (c : Cursor) : advance c = specAdvance c := by
  by_cases h : c.offset + 1 > c.ring * 2
  · have h' : 2 * c.ring < c.offset + 1 := by omega
    by_cases h64 : c.ring + 1 = 64
    · simp [advance, specAdvance, h, h', h64]
    · simp [advance, specAdvance, h, h', h64]
  · have h' : ¬ (2 * c.ring < c.offset + 1) := by omega
    simp [advance, specAdvance, h, h']

theorem advance_good {c : Cursor} (h : GoodCursor c) : GoodCursor (advance c) := by
  obtain ⟨h1, h2⟩ := h
  unfold advance GoodCursor
  by_cases ha : c.offset + 1 > c.ring * 2
  · by_cases h64 : c.ring + 1 = 64
    · simp [ha, h64]
    · simp [ha, h64]; omega
  · simp [ha]; omega

theorem initial_good : GoodCursor { ring := 0, offset := 0, layer := 0 } := by
  constructor <;> simp

theorem measure_lt_advance {c : Cursor} (h : GoodCursor c) :
    measureC c < measureC (advance c) := by
  obtain ⟨h1, h2⟩ := h
  unfold advance measureC
  by_cases ha : c.offset + 1 > c.ring * 2
  · by_cases h64 : c.ring + 1 = 64
    · simp [ha, h64]; omega
    · simp [ha, h64]; omega
  · simp [ha]

theorem good_iterate {c : Cursor} (h : GoodCursor c) (n : Nat) :
    GoodCursor (advance^[n] c) := by
  induction n with
  | zero => simpa using h
  | succ n ih => rw [Function.iterate_succ_apply']; exact advance_good ih

theorem measure_le_iterate {c : Cursor} (h : GoodCursor c) (n : Nat) :
    measureC c + n ≤ measureC (advance^[n] c) := by
  induction n with
  | zero => simp
  | succ n ih =>
    rw [Function.iterate_succ_apply']
    have := measure_lt_advance (good_iterate h n)
    omega

theorem measure_iterate_lt {c : Cursor} (hc : GoodCursor c) {i j : Nat} (hij : i < j) :
    measureC (advance^[i] c) < measureC (advance^[j] c) := by
  have hgi := good_iterate hc i
  have hle := measure_le_iterate hgi (j - i)
  rw [← Function.iterate_add_apply] at hle
  have hj : (j - i) + i = j := by omega
  rw [hj] at hle
  omega

theorem candidate_recover {c : Cursor} (h : GoodCursor c) :
    c.layer = (candidate c).z ∧ c.ring = max (candidate c).x (candidate c).y ∧
    c.offset = (if (candidate c).x < (candidate c).y then (candidate c).x
                else (candidate c).x + (candidate c).y) := by
  obtain ⟨h1, h2⟩ := h
  unfold candidate
  by_cases ho : c.offset < c.ring
  · refine ⟨by simp [ho], ?_, ?_⟩
    · simp only [if_pos ho]
      exact (Nat.max_eq_right (Nat.le_of_lt ho)).symm
    · simp only [if_pos ho, if_pos ho]
  · refine ⟨by simp [ho], ?_, ?_⟩
    · simp only [if_neg ho]
      exact (Nat.max_eq_left (by omega)).symm
    · simp only [if_neg ho]
      have hlt : ¬ (c.ring < c.offset - c.ring) := by omega
      simp only [if_neg hlt]
      omega

theorem candidate_inj {c c' : Cursor} (hc : GoodCursor c) (hc' : GoodCursor c')
    (h : candidate c = candidate c') : c = c' := by
  obtain ⟨hz, hr, ho⟩ := candidate_recover hc
  obtain ⟨hz', hr', ho'⟩ := candidate_recover hc'
  have e1 : c.layer = c'.layer := by rw [hz, hz', h]
  have e2 : c.ring = c'.ring := by rw [hr, hr', h]
  have e3 : c.offset = c'.offset := by rw [ho, ho', h]
  exact Cursor.ext e2 e3 e1

theorem iterate_candidate_inj {c : Cursor} (hc : GoodCursor c) {i j : Nat}
    (h : candidate (advance^[i] c) = candidate (advance^[j] c)) : i = j := by
  by_contra hne
  have hcc := candidate_inj (good_iterate hc i) (good_iterate hc j) h
  rcases Nat.lt_or_ge i j with hlt | hge
  · have := measure_iterate_lt hc hlt
    rw [hcc] at this
    omega
  · have hlt : j < i := by omega
    have := measure_iterate_lt hc hlt
    rw [hcc] at this
    omega

/-! ### Lemmas about the search loop -/

theorem searchLoop_none {F : Nat} {c : Cursor} {e : List (TilePos × String)}
    (h : searchLoop F c e = none) :
    ∀ i < F, (lookupA e (candidate (advance^[i] c))).isSome := by
  induction F generalizing c with
  | zero => intro i hi; omega
  | succ F ih =>
    intro i hi
    unfold searchLoop at h
    by_cases hocc : (lookupA e (candidate c)).isSome
    · cases i with
      | zero => simpa using hocc
      | succ i =>
        simp only [hocc, if_true] at h
        have := ih h i (by omega)
        rw [Function.iterate_succ_apply]
        exact this
    · simp [hocc] at h

theorem searchLoop_some {F : Nat} {c : Cursor} {e : List (TilePos × String)}
    {p : TilePos} {c' : Cursor}
    (h : searchLoop F c e = some (p, c')) :
    lookupA e p = none ∧ ∃ i, c' = advance^[i] c ∧ p = candidate c' := by
  induction F generalizing c with
  | zero => simp [searchLoop] at h
  | succ F ih =>
    unfold searchLoop at h
    by_cases hocc : (lookupA e (candidate c)).isSome
    · simp only [hocc, if_true] at h
      obtain ⟨h1, i, h2, h3⟩ := ih h
      refine ⟨h1, i + 1, ?_, h3⟩
      rw [Function.iterate_succ_apply]
      exact h2
    · simp only [hocc, if_false] at h
      obtain ⟨hp, hc⟩ := Prod.mk.injEq .. ▸ Option.some.injEq .. ▸ h
      subst hp
      subst hc
      exact ⟨Option.not_isSome_iff_eq_none.mp hocc, 0, rfl, rfl⟩

theorem searchLoop_isSome {c : Cursor} {e : List (TilePos × String)} (hc : GoodCursor c) :
    (searchLoop (e.length + 1) c e).isSome := by
  by_contra h
  rw [Option.not_isSome_iff_eq_none] at h
  have hall := searchLoop_none h
  have hinj : Set.InjOn (fun i => candidate (advance^[i] c))
      ↑(Finset.range (e.length + 1)) := by
    intro i _ j _ hij
    exact iterate_candidate_inj hc hij
  have hsub : (Finset.range (e.length + 1)).image (fun i => candidate (advance^[i] c)) ⊆
      (e.map Prod.fst).toFinset := by
    intro p hp
    simp only [Finset.mem_image] at hp
    obtain ⟨i, hi, rfl⟩ := hp
    rw [List.mem_toFinset]
    exact mem_keys_of_lookupA_isSome (hall i (Finset.mem_range.mp hi))
  have h1 : (Finset.range (e.length + 1)).card = e.length + 1 := Finset.card_range _
  have h2 := Finset.card_image_of_injOn hinj
  have h3 := Finset.card_le_card hsub
  have h4 := (e.map Prod.fst).toFinset_card_le
  rw [List.length_map] at h4
  omega

/-! ### Lemmas about `lookup` and allocation sequences -/

theorem lookup_isSome (m : TilesheetManager) (n : String) (hc : GoodCursor m.next) :
    (m.lookup n).isSome := by
  unfold TilesheetManager.lookup
  cases h : lookupA m.tiles n with
  | some t => simp
  | none =>
    have hs := searchLoop_isSome (e := m.entries) hc
    cases hsl : searchLoop (m.entries.length + 1) m.next m.entries with
    | none => rw [hsl] at hs; simp at hs
    | some r => obtain ⟨pos, c⟩ := r; simp

theorem lookup_known {m : TilesheetManager} {n : String} {t : Tile}
    (h : lookupA m.tiles n = some t) : m.lookup n = some (t.pos, m) := by
  unfold TilesheetManager.lookup
  rw [h]

theorem lookup_fresh {m : TilesheetManager} {n : String} {p : TilePos} {m' : TilesheetManager}
    (hf : lookupA m.tiles n = none) (h : m.lookup n = some (p, m')) :
    lookupA m.entries p = none ∧
    m'.tiles = (n, { pos := p, id := none }) :: m.tiles ∧
    m'.entries = (p, n) :: m.entries ∧
    m'.renames = m.renames ∧ m'.added = m.added ∧ m'.missing = m.missing ∧
    m'.deleted = m.deleted ∧ m'.tilesheets = m.tilesheets ∧
    (GoodCursor m.next → GoodCursor m'.next) := by
  unfold TilesheetManager.lookup at h
  rw [hf] at h
  cases hsl : searchLoop (m.entries.length + 1) m.next m.entries with
  | none => rw [hsl] at h; simp at h
  | some r =>
    obtain ⟨pos, c⟩ := r
    rw [hsl] at h
    simp only [Option.some.injEq, Prod.mk.injEq] at h
    obtain ⟨hp, hm⟩ := h
    obtain ⟨hnone, i, hci, hpc⟩ := searchLoop_some hsl
    subst hp
    subst hm
    refine ⟨hnone, rfl, rfl, rfl, rfl, rfl, rfl, rfl, fun hg => ?_⟩
    show GoodCursor c
    rw [hci]
    exact good_iterate hg i

theorem allocSeq_spec {names : List String} :
    ∀ {m : TilesheetManager}, GoodCursor m.next →
    (∀ n ∈ names, lookupA m.tiles n = none) → names.Nodup →
    ∃ ps m', allocSeq m names = some (ps, m') ∧
      ps.Nodup ∧
      (∀ p ∈ ps, lookupA m.entries p = none) ∧
      (∀ p ∈ ps, (lookupA m'.entries p).isSome) ∧
      (∀ p, (lookupA m.entries p).isSome → (lookupA m'.entries p).isSome) ∧
      GoodCursor m'.next := by
  induction names with
  | nil =>
    intro m hc _ _
    exact ⟨[], m, rfl, by simp, by simp, by simp, fun p h => h, hc⟩
  | cons n ns ih =>
    intro m hc hfresh hnodup
    have hf : lookupA m.tiles n = none := hfresh n (by simp)
    have hsome := lookup_isSome m n hc
    obtain ⟨r, hl⟩ := Option.isSome_iff_exists.mp hsome
    obtain ⟨p, m₁⟩ := r
    obtain ⟨hpnone, htiles, hentries, _, _, _, _, _, hgood⟩ := lookup_fresh hf hl
    have hc₁ := hgood hc
    have hndc := List.nodup_cons.mp hnodup
    have hfresh₁ : ∀ x ∈ ns, lookupA m₁.tiles x = none := by
      intro x hx
      rw [htiles, lookupA_cons]
      have hne : ¬ (n = x) := fun e => hndc.1 (e ▸ hx)
      simp only [hne, if_false]
      exact hfresh x (List.mem_cons_of_mem _ hx)
    obtain ⟨ps, m', hseq, hnd, hnotocc, hocc, hmono, hgood'⟩ := ih hc₁ hfresh₁ hndc.2
    have hmono₁ : ∀ q, (lookupA m.entries q).isSome → (lookupA m₁.entries q).isSome := by
      intro q hq
      rw [hentries, lookupA_cons]
      by_cases hpq : p = q
      · simp [hpq]
      · simp only [hpq, if_false]; exact hq
    refine ⟨p :: ps, m', ?_, ?_, ?_, ?_, ?_, hgood'⟩
    · simp only [allocSeq, hl, hseq]
    · rw [List.nodup_cons]
      refine ⟨fun hmem => ?_, hnd⟩
      have := hnotocc p hmem
      rw [hentries, lookupA_cons] at this
      simp at this
    · intro q hq
      rcases List.mem_cons.mp hq with hq | hq
      · subst hq; exact hpnone
      · have := hnotocc q hq
        rw [hentries, lookupA_cons] at this
        by_cases hpq : p = q
        · rw [if_pos hpq] at this; exact absurd this (by simp)
        · rwa [if_neg hpq] at this
    · intro q hq
      rcases List.mem_cons.mp hq with hq | hq
      · subst hq
        apply hmono
        rw [hentries, lookupA_cons]
        simp
      · exact hocc q hq
    · intro q hq
      exact hmono q (hmono₁ q hq)

/-! ### Claims about the allocator -/

/-- Claim C1: the allocator never returns an occupied position; within one
sequence of fresh-name allocations no position is returned twice; and each
accepted position is inserted into the entries map before the call returns
(single-call conjunct: the new state maps the position to the name). -/
theorem claim_C1_allocator_no_collision :
    (∀ (m : TilesheetManager) (n : String) (p : TilePos) (m' : TilesheetManager),
      lookupA m.tiles n = none → m.lookup n = some (p, m') →
      lookupA m.entries p = none ∧ lookupA m'.entries p = some n) ∧
    (∀ (m : TilesheetManager) (names : List String), GoodCursor m.next →
      (∀ n ∈ names, lookupA m.tiles n = none) → names.Nodup →
      ∃ ps m', allocSeq m names = some (ps, m') ∧ ps.Nodup ∧
        (∀ p ∈ ps, lookupA m.entries p = none) ∧
        (∀ p ∈ ps, (lookupA m'.entries p).isSome)) := by
  constructor
  · intro m n p m' hf hl
    obtain ⟨hpnone, _, hentries, _⟩ := lookup_fresh hf hl
    refine ⟨hpnone, ?_⟩
    rw [hentries, lookupA_cons]
    simp
  · intro m names hc hfresh hnodup
    obtain ⟨ps, m', hseq, hnd, hnotocc, hocc, _, _⟩ := allocSeq_spec hc hfresh hnodup
    exact ⟨ps, m', hseq, hnd, hnotocc, hocc⟩

/-- Witness for C1 at a concrete input: two fresh names allocated from the
empty state. -/
theorem claim_C1_allocator_no_collision_witness :
    ∃ ps m', allocSeq (initManager [] []) ["tile1", "tile2"] = some (ps, m') ∧ ps.Nodup ∧
      (∀ p ∈ ps, lookupA (initManager [] []).entries p = none) ∧
      (∀ p ∈ ps, (lookupA m'.entries p).isSome) :=
  claim_C1_allocator_no_collision.2 (initManager [] []) ["tile1", "tile2"]
    initial_good (by intro n _; rfl) (by simp)

/-- Claim C2: the search follows exactly the spec's growing-square-spiral
steps (candidate derivation and cursor advance match the spec's definitions
verbatim); an unoccupied candidate is accepted immediately and an occupied
one advances the cursor (the loop-unfolding conjunct); the loop never
panics and always breaks from a reachable cursor; and the layer index grows
without bound (no wrap-around) as collisions accumulate. -/
theorem claim_C2_spiral_steps :
    (∀ c, candidate c = specCandidate c) ∧
    (∀ c, advance c = specAdvance c) ∧
    (∀ (F : Nat) (c : Cursor) (e : List (TilePos × String)),
      searchLoop (F + 1) c e =
        if (lookupA e (candidate c)).isSome then searchLoop F (advance c) e
        else some (candidate c, c)) ∧
    (∀ (m : TilesheetManager) (n : String), GoodCursor m.next → (m.lookup n).isSome) ∧
    (∀ (c : Cursor) (L : Nat), GoodCursor c → ∃ k, L < (advance^[k] c).layer) := by
  refine ⟨candidate_eq_specCandidate, advance_eq_specAdvance, ?_,
    fun m n hc => lookup_isSome m n hc, ?_⟩
  · intro F c e
    rfl
  · intro c L hc
    refine ⟨16384 * (L + 1), ?_⟩
    have h1 := measure_le_iterate hc (16384 * (L + 1))
    obtain ⟨hg1, hg2⟩ := good_iterate hc (16384 * (L + 1))
    unfold measureC at h1
    omega

/-- Witness for C2: the conjuncts applied at concrete inputs. -/
theorem claim_C2_spiral_steps_witness :
    candidate { ring := 0, offset := 0, layer := 0 } =
      specCandidate { ring := 0, offset := 0, layer := 0 } ∧
    advance { ring := 0, offset := 0, layer := 0 } =
      specAdvance { ring := 0, offset := 0, layer := 0 } ∧
    searchLoop 1 { ring := 0, offset := 0, layer := 0 } [] =
      (if (lookupA ([] : List (TilePos × String))
            (candidate { ring := 0, offset := 0, layer := 0 })).isSome then
        searchLoop 0 (advance { ring := 0, offset := 0, layer := 0 }) []
      else some (candidate { ring := 0, offset := 0, layer := 0 },
        { ring := 0, offset := 0, layer := 0 })) ∧
    ((initManager [] []).lookup "tile1").isSome ∧
    ∃ k, 5 < (advance^[k] { ring := 0, offset := 0, layer := 0 }).layer :=
  ⟨claim_C2_spiral_steps.1 _, claim_C2_spiral_steps.2.1 _,
    claim_C2_spiral_steps.2.2.1 0 _ [],
    claim_C2_spiral_steps.2.2.2.1 (initManager [] []) "tile1" initial_good,
    claim_C2_spiral_steps.2.2.2.2 _ 5 initial_good⟩

/-- Counterexample to claim C3: from the empty state, allocating `tile1`
then `tile2` does NOT assign `tile2` the position `(1,0,0)`; the second
accepted candidate is `(x,y,z) = (0,1,0)` (ring 1, offset 0). -/
theorem claim_C3_counterexample :
    ¬ ((allocSeq (initManager [] []) ["tile1", "tile2"]).map Prod.fst =
      some [{ x := 0, y := 0, z := 0 }, { x := 1, y := 0, z := 0 }]) := by
  decide

/-- Claim C3 as amended: from the empty state, `tile1` is assigned `(0,0,0)`
and `tile2` is assigned `(0,1,0)`. -/
theorem claim_C3_first_two_positions :
    (allocSeq (initManager [] []) ["tile1", "tile2"]).map Prod.fst =
      some [{ x := 0, y := 0, z := 0 }, { x := 0, y := 1, z := 0 }] := by
  decide

/-- Claim C4: a name with an existing assignment returns that assignment
unchanged, with the whole manager state (cursor, tile table, position index)
untouched; hence re-running allocation over already-known names yields
exactly the stored positions and leaves the state as it was. -/
theorem claim_C4_existing_assignment_stable :
    (∀ (m : TilesheetManager) (n : String) (t : Tile),
      lookupA m.tiles n = some t → m.lookup n = some (t.pos, m)) ∧
    (∀ (m : TilesheetManager) (names : List String),
      (∀ n ∈ names, (lookupA m.tiles n).isSome) →
      ∃ ps, allocSeq m names = some (ps, m) ∧
        List.Forall₂ (fun n p => ∃ t, lookupA m.tiles n = some t ∧ t.pos = p) names ps) := by
  constructor
  · intro m n t h
    exact lookup_known h
  · intro m names
    induction names with
    | nil => intro _; exact ⟨[], rfl, List.Forall₂.nil⟩
    | cons n ns ih =>
      intro h
      obtain ⟨t, ht⟩ := Option.isSome_iff_exists.mp (h n (by simp))
      obtain ⟨ps, hseq, hrel⟩ := ih (fun x hx => h x (List.mem_cons_of_mem _ hx))
      refine ⟨t.pos :: ps, ?_, List.Forall₂.cons ⟨t, ht, rfl⟩ hrel⟩
      simp only [allocSeq, lookup_known ht, hseq]

/-- Witness for C4: a manager with one known tile. -/
theorem claim_C4_existing_assignment_stable_witness :
    ({ initManager [] [] with
        tiles := [("apple", { pos := { x := 2, y := 3, z := 0 }, id := some 7 })] } :
          TilesheetManager).lookup "apple" =
      some ({ x := 2, y := 3, z := 0 },
        { initManager [] [] with
          tiles := [("apple", { pos := { x := 2, y := 3, z := 0 }, id := some 7 })] }) ∧
    ∃ ps,
      allocSeq ({ initManager [] [] with
        tiles := [("apple", { pos := { x := 2, y := 3, z := 0 }, id := some 7 })] })
        ["apple"] =
      some (ps, { initManager [] [] with
        tiles := [("apple", { pos := { x := 2, y := 3, z := 0 }, id := some 7 })] }) ∧
      List.Forall₂ (fun n p => ∃ t,
        lookupA ({ initManager [] [] with
          tiles := [("apple", { pos := { x := 2, y := 3, z := 0 }, id := some 7 })] } :
            TilesheetManager).tiles n = some t ∧ t.pos = p) ["apple"] ps := by
  constructor
  · exact claim_C4_existing_assignment_stable.1 _ "apple"
      { pos := { x := 2, y := 3, z := 0 }, id := some 7 } (by simp [lookupA])
  · exact claim_C4_existing_assignment_stable.2 _ ["apple"]
      (by intro n hn; simp only [List.mem_singleton] at hn; subst hn; simp [lookupA])

/-! ### Lemmas about `Sheet` -/

theorem block_beyond {size w x : Nat} (hdvd : size ∣ w) (hgt : w < (x + 1) * size) :
    w ≤ x * size := by
  obtain ⟨k, hk⟩ := hdvd
  subst hk
  rcases Nat.eq_zero_or_pos size with h0 | hpos
  · subst h0; simp
  · have h1 : size * k < size * (x + 1) := by
      calc size * k < (x + 1) * size := hgt
        _ = size * (x + 1) := Nat.mul_comm _ _
    have h2 : k < x + 1 := Nat.lt_of_mul_lt_mul_left h1
    have h3 : k ≤ x := by omega
    calc size * k ≤ size * x := Nat.mul_le_mul_left _ h3
      _ = x * size := Nat.mul_comm _ _

theorem growLayer_some {L : Img} {W H : Nat} {L1 : Img}
    (h : Sheet.growLayer L W H = some L1) :
    L1.width = W ∧ L1.height = H ∧
    ∀ a b, L1.pix a b = if a < L.width ∧ b < L.height then L.pix a b else 0 := by
  unfold Sheet.growLayer at h
  split at h
  · injection h with h
    subst h
    exact ⟨rfl, rfl, fun a b => rfl⟩
  · exact absurd h (by simp)

theorem grownLayer_some (size : Nat) (p : TilePos) (L : Img) :
    ∃ L1, grownLayer size p L = some L1 ∧
      L.width ≤ L1.width ∧ L.height ≤ L1.height ∧
      (p.x + 1) * size ≤ L1.width ∧ (p.y + 1) * size ≤ L1.height := by
  unfold grownLayer
  by_cases hg : (p.x + 1) * size > L.width ∨ (p.y + 1) * size > L.height
  · rw [if_pos hg]
    have hguard : L.width = 0 ∨ L.height = 0 ∨
        (L.width ≤ max L.width (max ((p.x + 1) * size) L.width) ∧
         L.height ≤ max L.height (max ((p.y + 1) * size) L.height)) := by
      right; right; exact ⟨by omega, by omega⟩
    refine ⟨_, by unfold Sheet.growLayer; rw [if_pos hguard], ?_, ?_, ?_, ?_⟩
    all_goals simp only []
    all_goals omega
  · rw [if_neg hg]
    exact ⟨L, rfl, Nat.le_refl _, Nat.le_refl _, by omega, by omega⟩

theorem grownLayer_dims {size : Nat} {p : TilePos} {L L1 : Img}
    (h : grownLayer size p L = some L1) :
    L.width ≤ L1.width ∧ L.height ≤ L1.height := by
  unfold grownLayer at h
  split at h
  · obtain ⟨hw, hh, _⟩ := growLayer_some h
    constructor
    · rw [hw]; omega
    · rw [hh]; omega
  · injection h with h
    subst h
    exact ⟨Nat.le_refl _, Nat.le_refl _⟩

theorem insert_spec (rf : Img → Nat → Nat → Img) (ef : Img → Img)
    (s : Sheet) (p : TilePos) (img : Img)
    (hsq : img.width = img.height)
    {L : Img} (hL : (effLayers s p)[p.z]? = some L)
    {L1 : Img} (hgr : grownLayer s.size p L = some L1)
    (hfx : p.x * s.size + (ef (rf img s.size s.size)).width ≤ L1.width)
    (hfy : p.y * s.size + (ef (rf img s.size s.size)).height ≤ L1.height) :
    Sheet.insert rf ef s p img = some { s with layers :=
      ((effLayers s p).set p.z
        (writeBlock (ef (rf img s.size s.size)) (p.x * s.size) (p.y * s.size) L1)) } := by
  have h0 : ¬ (img.width ≠ img.height) := by simp [hsq]
  simp only [Sheet.insert, if_neg h0, hL, hgr]
  rw [if_pos ⟨hfx, hfy⟩]

theorem getElem?_lt_length {α : Type} {l : List α} {i : Nat} {a : α}
    (h : l[i]? = some a) : i < l.length := by
  by_contra hle
  rw [List.getElem?_eq_none_iff.mpr (by omega)] at h
  exact Option.noConfusion h

theorem effLayers_length {s : Sheet} {p : TilePos} :
    s.layers.length ≤ (effLayers s p).length := by
  unfold effLayers
  by_cases hz : p.z = s.layers.length
  · rw [if_pos hz]; simp
  · rw [if_neg hz]

theorem effLayers_getElem?_of_lt {s : Sheet} {p : TilePos} {i : Nat}
    (hi : i < s.layers.length) : (effLayers s p)[i]? = s.layers[i]? := by
  unfold effLayers
  by_cases hz : p.z = s.layers.length
  · rw [if_pos hz]
    exact List.getElem?_append_left hi
  · rw [if_neg hz]

theorem insert_layers_mono {rf : Img → Nat → Nat → Img} {ef : Img → Img}
    {s : Sheet} {p : TilePos} {img : Img} {s' : Sheet}
    (h : Sheet.insert rf ef s p img = some s') :
    s'.size = s.size ∧ s.layers.length ≤ s'.layers.length ∧
    (∀ i, i < s.layers.length →
      ∃ Li Li', s.layers[i]? = some Li ∧ s'.layers[i]? = some Li' ∧
        Li.width ≤ Li'.width ∧ Li.height ≤ Li'.height) := by
  unfold Sheet.insert at h
  by_cases hsq : img.width ≠ img.height
  · rw [if_pos hsq] at h
    exact absurd h (by simp)
  rw [if_neg hsq] at h
  cases hL : (effLayers s p)[p.z]? with
  | none => simp [hL] at h
  | some L =>
    simp only [hL] at h
    cases hgr : grownLayer s.size p L with
    | none => simp [hgr] at h
    | some L1 =>
      simp only [hgr] at h
      by_cases hfit : p.x * s.size + (ef (rf img s.size s.size)).width ≤ L1.width ∧
          p.y * s.size + (ef (rf img s.size s.size)).height ≤ L1.height
      · rw [if_pos hfit] at h
        injection h with h
        subst h
        have hzlt : p.z < (effLayers s p).length := getElem?_lt_length hL
        refine ⟨rfl, ?_, ?_⟩
        · show s.layers.length ≤ ((effLayers s p).set p.z _).length
          rw [List.length_set]
          exact effLayers_length
        · intro i hi
          have hgetS : s.layers[i]? = some s.layers[i] := List.getElem?_eq_getElem hi
          by_cases hip : p.z = i
          · subst hip
            have hsL : s.layers[p.z]? = some L := by
              rw [← effLayers_getElem?_of_lt hi]
              exact hL
            obtain ⟨hw, hh⟩ := grownLayer_dims hgr
            refine ⟨L, writeBlock (ef (rf img s.size s.size)) (p.x * s.size) (p.y * s.size) L1,
              hsL, ?_, hw, hh⟩
            show ((effLayers s p).set p.z _)[p.z]? = _
            rw [List.getElem?_set_self hzlt]
          · refine ⟨s.layers[i], s.layers[i], hgetS, ?_, Nat.le_refl _, Nat.le_refl _⟩
            show ((effLayers s p).set p.z _)[i]? = _
            rw [List.getElem?_set_ne hip, effLayers_getElem?_of_lt hi]
            exact hgetS
      · rw [if_neg hfit] at h
        exact absurd h (by simp)

/-- Claim C9: `Sheet::insert` asserts its source image is square and fails
(returns the panic value) on any non-square source; under the spec's
precondition (square source, in-range layer, dimension-respecting resample
and encode collaborators) the failing branch is unreachable and the insert
succeeds. -/
theorem claim_C9_insert_square_assert :
    (∀ (rf : Img → Nat → Nat → Img) (ef : Img → Img) (s : Sheet) (p : TilePos) (img : Img),
      img.width ≠ img.height → Sheet.insert rf ef s p img = none) ∧
    (∀ (rf : Img → Nat → Nat → Img) (ef : Img → Img) (s : Sheet) (p : TilePos) (img : Img),
      (∀ i w h, (rf i w h).width = w ∧ (rf i w h).height = h) →
      (∀ i, (ef i).width = i.width ∧ (ef i).height = i.height) →
      img.width = img.height → p.z ≤ s.layers.length →
      (Sheet.insert rf ef s p img).isSome) := by
  constructor
  · intro rf ef s p img h
    unfold Sheet.insert
    rw [if_pos h]
  · intro rf ef s p img hr he hsq hz
    have htw : (ef (rf img s.size s.size)).width = s.size := by
      rw [(he _).1, (hr _ _ _).1]
    have hth : (ef (rf img s.size s.size)).height = s.size := by
      rw [(he _).2, (hr _ _ _).2]
    have hL : ∃ L, (effLayers s p)[p.z]? = some L := by
      unfold effLayers
      by_cases hze : p.z = s.layers.length
      · rw [if_pos hze, hze]
        exact ⟨_, List.getElem?_concat_length _ _⟩
      · have hlt : p.z < s.layers.length := by omega
        rw [if_neg hze]
        exact ⟨_, List.getElem?_eq_getElem hlt⟩
    obtain ⟨L, hL⟩ := hL
    obtain ⟨L1, hgr, _, _, hfx, hfy⟩ := grownLayer_some s.size p L
    have hsx : (p.x + 1) * s.size = p.x * s.size + s.size := by ring
    have hsy : (p.y + 1) * s.size = p.y * s.size + s.size := by ring
    rw [insert_spec rf ef s p img hsq hL hgr (by rw [htw]; omega) (by rw [hth]; omega)]
    simp

/-- Witness for C9: a 1×2 source image hits the assert; a 1×1 source into a
fresh one-layer sheet succeeds. -/
theorem claim_C9_insert_square_assert_witness :
    Sheet.insert (fun _ w h => blankImg w h) (fun i => i)
      { size := 1, layers := [blankImg 1 1] } { x := 1, y := 0, z := 0 }
      (blankImg 1 2) = none ∧
    (Sheet.insert (fun _ w h => blankImg w h) (fun i => i)
      { size := 1, layers := [blankImg 1 1] } { x := 1, y := 0, z := 0 }
      (blankImg 1 1)).isSome := by
  constructor
  · exact claim_C9_insert_square_assert.1 _ _ _ _ _ (by decide)
  · exact claim_C9_insert_square_assert.2 _ _ _ _ _
      (fun i w h => ⟨rfl, rfl⟩) (fun i => ⟨rfl, rfl⟩) rfl (by decide)

theorem insertSeq_layers_mono {rf : Img → Nat → Nat → Img} {ef : Img → Img}
    {ops : List (TilePos × Img)} :
    ∀ {s s' : Sheet}, insertSeq rf ef s ops = some s' →
      s.layers.length ≤ s'.layers.length ∧
      ∀ i, i < s.layers.length →
        ∃ Li Li', s.layers[i]? = some Li ∧ s'.layers[i]? = some Li' ∧
          Li.width ≤ Li'.width ∧ Li.height ≤ Li'.height := by
  induction ops with
  | nil =>
    intro s s' h
    injection h with h
    subst h
    exact ⟨Nat.le_refl _, fun i hi =>
      ⟨s.layers[i], s.layers[i], List.getElem?_eq_getElem hi,
        List.getElem?_eq_getElem hi, Nat.le_refl _, Nat.le_refl _⟩⟩
  | cons op rest ih =>
    intro s s' h
    obtain ⟨q, im⟩ := op
    unfold insertSeq at h
    cases hstep : Sheet.insert rf ef s q im with
    | none => rw [hstep] at h; exact absurd h (by simp)
    | some s₁ =>
      rw [hstep] at h
      obtain ⟨_, hlen₁, hmono₁⟩ := insert_layers_mono hstep
      obtain ⟨hlen₂, hmono₂⟩ := ih h
      refine ⟨Nat.le_trans hlen₁ hlen₂, ?_⟩
      intro i hi
      obtain ⟨Li, Li1, hsi, hs1i, hw1, hh1⟩ := hmono₁ i hi
      obtain ⟨Mi, Mi', hs1i', hsi', hw2, hh2⟩ := hmono₂ i (by omega)
      rw [hs1i] at hs1i'
      injection hs1i' with he
      subst he
      exact ⟨Li, Mi', hsi, hsi', Nat.le_trans hw1 hw2, Nat.le_trans hh1 hh2⟩

/-- Claim C5: an insert that requires growth replaces the target layer with
the smallest buffer whose dimensions cover both the old bounds and the
inserted block's far edge `((x+1)·size, (y+1)·size)`; every previously
written pixel keeps its exact value at its original coordinate; newly
exposed area outside the inserted block is blank; and layer dimensions
never shrink across any sequence of inserts. -/
theorem claim_C5_growth_preserves_pixels :
    (∀ (rf : Img → Nat → Nat → Img) (ef : Img → Img) (s : Sheet) (p : TilePos)
      (img : Img) (L : Img),
      (∀ i w h, (rf i w h).width = w ∧ (rf i w h).height = h) →
      (∀ i, (ef i).width = i.width ∧ (ef i).height = i.height) →
      img.width = img.height →
      p.z < s.layers.length → s.layers[p.z]? = some L →
      s.size ∣ L.width → s.size ∣ L.height →
      ((p.x + 1) * s.size > L.width ∨ (p.y + 1) * s.size > L.height) →
      ∃ s' L', Sheet.insert rf ef s p img = some s' ∧ s'.layers[p.z]? = some L' ∧
        L'.width = max L.width ((p.x + 1) * s.size) ∧
        L'.height = max L.height ((p.y + 1) * s.size) ∧
        (∀ a b, a < L.width → b < L.height → L'.pix a b = L.pix a b) ∧
        (∀ a b, a < L'.width → b < L'.height → (L.width ≤ a ∨ L.height ≤ b) →
          ¬ (p.x * s.size ≤ a ∧ a < (p.x + 1) * s.size ∧
             p.y * s.size ≤ b ∧ b < (p.y + 1) * s.size) →
          L'.pix a b = 0)) ∧
    (∀ (rf : Img → Nat → Nat → Img) (ef : Img → Img) (s : Sheet)
      (ops : List (TilePos × Img)) (s' : Sheet),
      insertSeq rf ef s ops = some s' →
      s.layers.length ≤ s'.layers.length ∧
      ∀ i, i < s.layers.length →
        ∃ Li Li', s.layers[i]? = some Li ∧ s'.layers[i]? = some Li' ∧
          Li.width ≤ Li'.width ∧ Li.height ≤ Li'.height) := by
  constructor
  · intro rf ef s p img L hr he hsq hz hLs hw hh hg
    have htw : (ef (rf img s.size s.size)).width = s.size := by
      rw [(he _).1, (hr _ _ _).1]
    have hth : (ef (rf img s.size s.size)).height = s.size := by
      rw [(he _).2, (hr _ _ _).2]
    have hne : ¬ (p.z = s.layers.length) := by omega
    have heff : effLayers s p = s.layers := by
      unfold effLayers
      rw [if_neg hne]
    have hL : (effLayers s p)[p.z]? = some L := by rw [heff]; exact hLs
    have hsx : (p.x + 1) * s.size = p.x * s.size + s.size := by ring
    have hsy : (p.y + 1) * s.size = p.y * s.size + s.size := by ring
    have hguard : L.width = 0 ∨ L.height = 0 ∨
        (L.width ≤ max L.width (max ((p.x + 1) * s.size) L.width) ∧
         L.height ≤ max L.height (max ((p.y + 1) * s.size) L.height)) := by
      right; right; exact ⟨by omega, by omega⟩
    have hgr : grownLayer s.size p L = some
        { width := max L.width (max ((p.x + 1) * s.size) L.width),
          height := max L.height (max ((p.y + 1) * s.size) L.height),
          pix := fun a b => if a < L.width ∧ b < L.height then L.pix a b else 0 } := by
      unfold grownLayer
      rw [if_pos hg]
      unfold Sheet.growLayer
      rw [if_pos hguard]
    have hins := insert_spec rf ef s p img hsq hL hgr
      (by rw [htw]; simp only []; omega) (by rw [hth]; simp only []; omega)
    refine ⟨_, writeBlock (ef (rf img s.size s.size)) (p.x * s.size) (p.y * s.size)
      { width := max L.width (max ((p.x + 1) * s.size) L.width),
        height := max L.height (max ((p.y + 1) * s.size) L.height),
        pix := fun a b => if a < L.width ∧ b < L.height then L.pix a b else 0 },
      hins, ?_, ?_, ?_, ?_, ?_⟩
    · show ((effLayers s p).set p.z _)[p.z]? = some _
      rw [List.getElem?_set_self (by rw [heff]; exact hz)]
    · show max L.width (max ((p.x + 1) * s.size) L.width) = _
      omega
    · show max L.height (max ((p.y + 1) * s.size) L.height) = _
      omega
    · intro a b ha hb
      show (if p.x * s.size ≤ a ∧ a < p.x * s.size + (ef (rf img s.size s.size)).width ∧
              p.y * s.size ≤ b ∧ b < p.y * s.size + (ef (rf img s.size s.size)).height then
              _ else if a < L.width ∧ b < L.height then L.pix a b else 0) = L.pix a b
      rw [htw, hth]
      have hblock : ¬ (p.x * s.size ≤ a ∧ a < p.x * s.size + s.size ∧
          p.y * s.size ≤ b ∧ b < p.y * s.size + s.size) := by
        rcases hg with hg | hg
        · have := block_beyond hw hg
          intro hc
          omega
        · have := block_beyond hh hg
          intro hc
          omega
      rw [if_neg hblock, if_pos ⟨ha, hb⟩]
    · intro a b _ _ hout hnb
      show (if p.x * s.size ≤ a ∧ a < p.x * s.size + (ef (rf img s.size s.size)).width ∧
              p.y * s.size ≤ b ∧ b < p.y * s.size + (ef (rf img s.size s.size)).height then
              _ else if a < L.width ∧ b < L.height then L.pix a b else 0) = 0
      rw [htw, hth]
      have hnb' : ¬ (p.x * s.size ≤ a ∧ a < p.x * s.size + s.size ∧
          p.y * s.size ≤ b ∧ b < p.y * s.size + s.size) := by
        intro hc
        exact hnb ⟨hc.1, by omega, hc.2.2.1, by omega⟩
      rw [if_neg hnb', if_neg (by omega)]
  · intro rf ef s ops s' h
    exact insertSeq_layers_mono h

/-- Witness for C5: growing a 1×1 single-layer sheet by inserting at
`(1,0,0)`, with identity-shaped collaborators; and the empty insert
sequence. -/
theorem claim_C5_growth_preserves_pixels_witness :
    (∃ s' L', Sheet.insert (fun _ w h => blankImg w h) (fun i => i)
        { size := 1, layers := [blankImg 1 1] } { x := 1, y := 0, z := 0 }
        (blankImg 1 1) = some s' ∧
      s'.layers[0]? = some L' ∧
      L'.width = max 1 2 ∧ L'.height = max 1 1 ∧
      (∀ a b, a < 1 → b < 1 → L'.pix a b = (blankImg 1 1).pix a b) ∧
      (∀ a b, a < L'.width → b < L'.height → (1 ≤ a ∨ 1 ≤ b) →
        ¬ (1 ≤ a ∧ a < 2 ∧ 0 ≤ b ∧ b < 1) → L'.pix a b = 0)) ∧
    ((insertSeq (fun _ w h => blankImg w h) (fun i => i)
        { size := 1, layers := [blankImg 1 1] } [] = some { size := 1, layers := [blankImg 1 1] }) →
      ({ size := 1, layers := [blankImg 1 1] } : Sheet).layers.length ≤ 1) := by
  constructor
  · have h := claim_C5_growth_preserves_pixels.1 (fun _ w h => blankImg w h) (fun i => i)
      { size := 1, layers := [blankImg 1 1] } { x := 1, y := 0, z := 0 }
      (blankImg 1 1) (blankImg 1 1)
      (fun i w h => ⟨rfl, rfl⟩) (fun i => ⟨rfl, rfl⟩) rfl
      (by decide) rfl ⟨1, rfl⟩ ⟨1, rfl⟩ (by decide)
    exact h
  · intro hseq
    exact (claim_C5_growth_preserves_pixels.2 (fun _ w h => blankImg w h) (fun i => i)
      { size := 1, layers := [blankImg 1 1] } [] _ hseq).1

/-! ### The tiles/entries bijection invariant (C6) -/

theorem importRow_inverse {m : TilesheetManager} {r : RemoteRow}
    (hm : Inverse m) (hn : lookupA m.tiles r.name = none)
    (hp : lookupA m.entries r.pos = none) : Inverse (importRow m r) := by
  obtain ⟨h1, h2⟩ := hm
  constructor
  · intro n t h
    show lookupA ((r.pos, r.name) :: m.entries) t.pos = some n
    have h' : lookupA ((r.name, { pos := r.pos, id := some r.id }) :: m.tiles) n = some t := h
    rw [lookupA_cons] at h'
    by_cases hname : r.name = n
    · rw [if_pos hname] at h'
      injection h' with h'
      subst h'
      rw [lookupA_cons, if_pos rfl, hname]
    · rw [if_neg hname] at h'
      have hmem := h1 n t h'
      have hne : r.pos ≠ t.pos := by
        intro he
        rw [← he] at hmem
        rw [hmem] at hp
        exact Option.noConfusion hp
      rw [lookupA_cons, if_neg hne]
      exact hmem
  · intro p n h
    show ∃ t, lookupA ((r.name, { pos := r.pos, id := some r.id }) :: m.tiles) n = some t ∧
      t.pos = p
    have h' : lookupA ((r.pos, r.name) :: m.entries) p = some n := h
    rw [lookupA_cons] at h'
    by_cases hpos : r.pos = p
    · rw [if_pos hpos] at h'
      injection h' with h'
      subst h'
      exact ⟨{ pos := r.pos, id := some r.id }, by rw [lookupA_cons, if_pos rfl], hpos⟩
    · rw [if_neg hpos] at h'
      obtain ⟨t, ht, htp⟩ := h2 p n h'
      have hnn : r.name ≠ n := by
        intro he
        rw [he] at hn
        rw [ht] at hn
        exact Option.noConfusion hn
      exact ⟨t, by rw [lookupA_cons, if_neg hnn]; exact ht, htp⟩

theorem import_tiles_inverse {rows : List RemoteRow} :
    ∀ {m : TilesheetManager}, Inverse m →
    (rows.map RemoteRow.name).Nodup → (rows.map RemoteRow.pos).Nodup →
    (∀ r ∈ rows, lookupA m.tiles r.name = none ∧ lookupA m.entries r.pos = none) →
    Inverse (import_tiles m rows) := by
  induction rows with
  | nil => intro m hm _ _ _; exact hm
  | cons r rest ih =>
    intro m hm hn hp hfresh
    simp only [List.map_cons, List.nodup_cons] at hn hp
    show Inverse (import_tiles (importRow m r) rest)
    refine ih (importRow_inverse hm (hfresh r (by simp)).1 (hfresh r (by simp)).2)
      hn.2 hp.2 ?_
    intro r' hr'
    have hnmem : r.name ≠ r'.name := fun he =>
      hn.1 (he ▸ List.mem_map_of_mem RemoteRow.name hr')
    have hpmem : r.pos ≠ r'.pos := fun he =>
      hp.1 (he ▸ List.mem_map_of_mem RemoteRow.pos hr')
    constructor
    · show lookupA ((r.name, { pos := r.pos, id := some r.id }) :: m.tiles) r'.name = none
      rw [lookupA_cons, if_neg hnmem]
      exact (hfresh r' (List.mem_cons_of_mem _ hr')).1
    · show lookupA ((r.pos, r.name) :: m.entries) r'.pos = none
      rw [lookupA_cons, if_neg hpmem]
      exact (hfresh r' (List.mem_cons_of_mem _ hr')).2

theorem deleteOne_inverse {m : TilesheetManager} {name : String} {m' : TilesheetManager}
    (hm : Inverse m) (h : deleteOne m name = .ok m') : Inverse m' := by
  unfold deleteOne at h
  cases hl : lookupA m.tiles name with
  | none =>
    rw [hl] at h
    injection h with h
    subst h
    exact hm
  | some tile =>
    rw [hl] at h
    dsimp only at h
    cases hid : tile.id with
    | none =>
      simp only [hid] at h
      exact absurd h (by simp)
    | some i =>
      simp only [hid] at h
      injection h with h
      subst h
      obtain ⟨h1, h2⟩ := hm
      constructor
      · intro n t ht
        have ht' : lookupA (eraseKey name m.tiles) n = some t := ht
        show lookupA (eraseKey tile.pos m.entries) t.pos = some n
        by_cases hnn : n = name
        · subst hnn
          rw [lookupA_eraseKey_self] at ht'
          exact Option.noConfusion ht'
        · rw [lookupA_eraseKey_ne _ _ _ hnn] at ht'
          have hmem := h1 n t ht'
          have hne : t.pos ≠ tile.pos := by
            intro he
            have h1n := h1 name tile hl
            rw [← he] at h1n
            rw [hmem] at h1n
            injection h1n with h1n
            exact hnn h1n
          rw [lookupA_eraseKey_ne _ _ _ hne]
          exact hmem
      · intro p n hq
        have hq' : lookupA (eraseKey tile.pos m.entries) p = some n := hq
        show ∃ t, lookupA (eraseKey name m.tiles) n = some t ∧ t.pos = p
        by_cases hpp : p = tile.pos
        · subst hpp
          rw [lookupA_eraseKey_self] at hq'
          exact Option.noConfusion hq'
        · rw [lookupA_eraseKey_ne _ _ _ hpp] at hq'
          obtain ⟨t, ht, htp⟩ := h2 p n hq'
          have hnn : n ≠ name := by
            intro he
            subst he
            rw [ht] at hl
            injection hl with hl
            subst hl
            exact hpp htp.symm
          exact ⟨t, by rw [lookupA_eraseKey_ne _ _ _ hnn]; exact ht, htp⟩

theorem record_deletions_inverse {td : List String} :
    ∀ {m m' : TilesheetManager}, Inverse m → record_deletions m td = .ok m' →
    Inverse m' := by
  induction td with
  | nil =>
    intro m m' hm h
    injection h with h
    subst h
    exact hm
  | cons n ns ih =>
    intro m m' hm h
    unfold record_deletions at h
    cases hd : deleteOne m n with
    | error e => rw [hd] at h; exact absurd h (by simp)
    | ok m₁ =>
      rw [hd] at h
      exact ih (deleteOne_inverse hm hd) h

theorem lookup_inverse {m : TilesheetManager} {n : String} {p : TilePos}
    {m' : TilesheetManager} (hm : Inverse m) (h : m.lookup n = some (p, m')) :
    Inverse m' := by
  cases hl : lookupA m.tiles n with
  | some t =>
    rw [lookup_known hl] at h
    injection h with h
    obtain ⟨-, h2⟩ := Prod.mk.injEq .. ▸ h
    subst h2
    exact hm
  | none =>
    obtain ⟨hpnone, htiles, hentries, _⟩ := lookup_fresh hl h
    obtain ⟨h1, h2⟩ := hm
    constructor
    · intro n' t' ht'
      rw [htiles, lookupA_cons] at ht'
      rw [hentries, lookupA_cons]
      by_cases hnn : n = n'
      · rw [if_pos hnn] at ht'
        injection ht' with ht'
        subst ht'
        rw [if_pos rfl, hnn]
      · rw [if_neg hnn] at ht'
        have hmem := h1 n' t' ht'
        have hne : p ≠ t'.pos := by
          intro he
          rw [← he] at hmem
          rw [hmem] at hpnone
          exact Option.noConfusion hpnone
        rw [if_neg hne]
        exact hmem
    · intro q n' hq
      rw [hentries, lookupA_cons] at hq
      rw [htiles]
      by_cases hpq : p = q
      · rw [if_pos hpq] at hq
        injection hq with hq
        subst hq
        exact ⟨{ pos := p, id := none }, by rw [lookupA_cons, if_pos rfl], hpq⟩
      · rw [if_neg hpq] at hq
        obtain ⟨t, ht, htp⟩ := h2 q n' hq
        have hnn : n ≠ n' := by
          intro he
          subst he
          rw [ht] at hl
          exact Option.noConfusion hl
        exact ⟨t, by rw [lookupA_cons, if_neg hnn]; exact ht, htp⟩

/-- Claim C6: the tile table and the position index stay mutually inverse
through every mutating operation of a run: the initial state satisfies the
invariant, importing well-formed registry rows preserves it,
`record_deletions` preserves it, and `lookup` preserves it; consequently at
most one live tile occupies any position. -/
theorem claim_C6_bijection_invariant :
    (∀ renames sheets, Inverse (initManager renames sheets)) ∧
    (∀ (m : TilesheetManager) (rows : List RemoteRow), Inverse m →
      (rows.map RemoteRow.name).Nodup → (rows.map RemoteRow.pos).Nodup →
      (∀ r ∈ rows, lookupA m.tiles r.name = none ∧ lookupA m.entries r.pos = none) →
      Inverse (import_tiles m rows)) ∧
    (∀ (m : TilesheetManager) (td : List String) (m' : TilesheetManager),
      Inverse m → record_deletions m td = .ok m' → Inverse m') ∧
    (∀ (m : TilesheetManager) (n : String) (p : TilePos) (m' : TilesheetManager),
      Inverse m → m.lookup n = some (p, m') → Inverse m') ∧
    (∀ (m : TilesheetManager), Inverse m →
      ∀ n₁ n₂ t₁ t₂, lookupA m.tiles n₁ = some t₁ → lookupA m.tiles n₂ = some t₂ →
        t₁.pos = t₂.pos → n₁ = n₂) := by
  refine ⟨?_, ?_, ?_, ?_, ?_⟩
  · intro renames sheets
    constructor
    · intro n t h
      simp [initManager, lookupA] at h
    · intro p n h
      simp [initManager, lookupA] at h
  · intro m rows hm hn hp hfresh
    exact import_tiles_inverse hm hn hp hfresh
  · intro m td m' hm h
    exact record_deletions_inverse hm h
  · intro m n p m' hm h
    exact lookup_inverse hm h
  · intro m hm n₁ n₂ t₁ t₂ h₁ h₂ hpos
    have e₁ := hm.1 n₁ t₁ h₁
    have e₂ := hm.1 n₂ t₂ h₂
    rw [hpos] at e₁
    rw [e₁] at e₂
    exact Option.some.inj e₂

/-- Witness for C6: concrete runs of each operation starting from the empty
manager. -/
theorem claim_C6_bijection_invariant_witness :
    Inverse (initManager [] []) ∧
    Inverse (import_tiles (initManager [] [])
      [{ x := 0, y := 0, z := 0, id := 1, name := "a" }]) ∧
    Inverse (initManager [] []) ∧
    Inverse ({ initManager [] [] with
      tiles := [("b", { pos := { x := 0, y := 0, z := 0 }, id := none })],
      entries := [({ x := 0, y := 0, z := 0 }, "b")] }) ∧
    ("a" : String) = "a" := by
  have hinit := claim_C6_bijection_invariant.1 ([] : List (String × String)) ([] : List Sheet)
  refine ⟨hinit, ?_, ?_, ?_, ?_⟩
  · exact claim_C6_bijection_invariant.2.1 (initManager [] [])
      [{ x := 0, y := 0, z := 0, id := 1, name := "a" }] hinit (by decide) (by decide)
      (by intro r hr; exact ⟨rfl, rfl⟩)
  · exact claim_C6_bijection_invariant.2.2.1 (initManager [] []) ["ghost"] _ hinit rfl
  · exact claim_C6_bijection_invariant.2.2.2.1 (initManager [] []) "b"
      { x := 0, y := 0, z := 0 } _ hinit rfl
  · have himp := claim_C6_bijection_invariant.2.1 (initManager [] [])
      [{ x := 0, y := 0, z := 0, id := 1, name := "a" }] hinit (by decide) (by decide)
      (by intro r hr; exact ⟨rfl, rfl⟩)
    exact claim_C6_bijection_invariant.2.2.2.2
      (import_tiles (initManager [] []) [{ x := 0, y := 0, z := 0, id := 1, name := "a" }])
      himp "a" "a" { pos := { x := 0, y := 0, z := 0 }, id := some 1 }
      { pos := { x := 0, y := 0, z := 0 }, id := some 1 } rfl rfl rfl

/-! ### Fatal-error behaviour of the scan, gate and compose phases (C7, C8) -/

/-- The reconciliation core an aborted run must leave untouched: the tile
table, the position index, the allocator cursor, the recorded deletions and
the renames map. -/
def SameCore (m m' : TilesheetManager) : Prop :=
  m'.tiles = m.tiles ∧ m'.entries = m.entries ∧ m'.next = m.next ∧
  m'.deleted = m.deleted ∧ m'.renames = m.renames

theorem sameCore_refl (m : TilesheetManager) : SameCore m m := ⟨rfl, rfl, rfl, rfl, rfl⟩

theorem sameCore_trans {m₁ m₂ m₃ : TilesheetManager}
    (h1 : SameCore m₁ m₂) (h2 : SameCore m₂ m₃) : SameCore m₁ m₃ := by
  obtain ⟨a1, b1, c1, d1, e1⟩ := h1
  obtain ⟨a2, b2, c2, d2, e2⟩ := h2
  exact ⟨a2.trans a1, b2.trans b1, c2.trans c1, d2.trans d1, e2.trans e1⟩

/-- A walked entry the scan actually processes (regular `.png` file, not
ignored by the renames map) whose rename-resolved name is illegal. -/
def ProcessedIllegal (renames : List (String × String)) (f : FsEntry) : Prop :=
  f.isFile = true ∧ f.ext = "png" ∧
  ∃ name, resolveName renames f.stem = some name ∧ illegalName name = true

theorem checkFile_illegal {m : TilesheetManager} {f : FsEntry}
    (hf : ProcessedIllegal m.renames f) :
    ∃ n, checkFile m f = .error (.illegalName n, m) ∧ illegalName n = true := by
  obtain ⟨h1, h2, name, h3, h4⟩ := hf
  refine ⟨name, ?_, h4⟩
  simp [checkFile, h1, h2, h3, h4]

theorem checkFile_not_illegal {m : TilesheetManager} {f : FsEntry}
    (hf : ¬ ProcessedIllegal m.renames f) :
    ∃ m', checkFile m f = .ok m' ∧ SameCore m m' := by
  by_cases h1 : f.isFile
  case neg => exact ⟨m, by simp [checkFile, h1], sameCore_refl m⟩
  by_cases h2 : f.ext = "png"
  case neg => exact ⟨m, by simp [checkFile, h1, h2], sameCore_refl m⟩
  cases h3 : resolveName m.renames f.stem with
  | none => exact ⟨m, by simp [checkFile, h1, h2, h3], sameCore_refl m⟩
  | some name =>
    have h4 : illegalName name = false := by
      by_contra hc
      exact hf ⟨by simpa using h1, h2, name, h3, by revert hc; cases illegalName name <;> simp⟩
    refine ⟨{ m with
        missing := m.missing.filter (fun x => x != name),
        added := if (lookupA m.tiles name).isSome then m.added else m.added ++ [name] },
      ?_, ⟨rfl, rfl, rfl, rfl, rfl⟩⟩
    simp [checkFile, h1, h2, h3, h4]

theorem check_changes_illegal {files : List FsEntry} :
    ∀ {m : TilesheetManager}, (∃ f ∈ files, ProcessedIllegal m.renames f) →
    ∃ n m', check_changes m files = .error (.illegalName n, m') ∧
      illegalName n = true ∧ SameCore m m' := by
  induction files with
  | nil =>
    intro m h
    obtain ⟨f, hf, _⟩ := h
    exact absurd hf (List.not_mem_nil f)
  | cons f fs ih =>
    intro m h
    by_cases hf : ProcessedIllegal m.renames f
    · obtain ⟨n, he, hn⟩ := checkFile_illegal hf
      refine ⟨n, m, ?_, hn, sameCore_refl m⟩
      unfold check_changes
      rw [he]
    · obtain ⟨m₁, hok, hcore⟩ := checkFile_not_illegal hf
      obtain ⟨f', hf', hpf'⟩ := h
      rcases List.mem_cons.mp hf' with he | hmem
      · subst he
        exact absurd hpf' hf
      · obtain ⟨n, m', hcc, hn, hcore'⟩ := ih (m := m₁)
          ⟨f', hmem, by rw [hcore.2.2.2.2]; exact hpf'⟩
        refine ⟨n, m', ?_, hn, sameCore_trans hcore hcore'⟩
        unfold check_changes
        rw [hok]
        exact hcc

theorem check_changes_ok {files : List FsEntry} :
    ∀ {m : TilesheetManager}, (∀ f ∈ files, ¬ ProcessedIllegal m.renames f) →
    ∃ m', check_changes m files = .ok m' ∧ SameCore m m' := by
  induction files with
  | nil => intro m _; exact ⟨m, rfl, sameCore_refl m⟩
  | cons f fs ih =>
    intro m h
    obtain ⟨m₁, hok, hcore⟩ := checkFile_not_illegal (h f (by simp))
    obtain ⟨m', hcc, hcore'⟩ := ih (m := m₁) (fun f' hf' => by
      rw [hcore.2.2.2.2]
      exact h f' (List.mem_cons_of_mem _ hf'))
    refine ⟨m', ?_, sameCore_trans hcore hcore'⟩
    unfold check_changes
    rw [hok]
    exact hcc

theorem lookup_renames {m : TilesheetManager} {n : String} {p : TilePos}
    {m' : TilesheetManager} (h : m.lookup n = some (p, m')) :
    m'.renames = m.renames := by
  unfold TilesheetManager.lookup at h
  cases hl : lookupA m.tiles n with
  | some t =>
    rw [hl] at h
    simp only [Option.some.injEq, Prod.mk.injEq] at h
    obtain ⟨-, h2⟩ := h
    subst h2
    rfl
  | none =>
    rw [hl] at h
    cases hs : searchLoop (m.entries.length + 1) m.next m.entries with
    | none => rw [hs] at h; exact absurd h (by simp)
    | some r =>
      obtain ⟨pos, c⟩ := r
      rw [hs] at h
      simp only [Option.some.injEq, Prod.mk.injEq] at h
      obtain ⟨-, h2⟩ := h
      subst h2
      rfl

theorem updateFile_illegal {fixF decodeF : Img → Img} {rF : Img → Nat → Nat → Img}
    {eF : Img → Img} {m : TilesheetManager} {f : FsEntry}
    (hf : ProcessedIllegal m.renames f) :
    ∃ n, updateFile fixF decodeF rF eF m f = .error (.illegalName n, m) ∧
      illegalName n = true := by
  obtain ⟨h1, h2, name, h3, h4⟩ := hf
  refine ⟨name, ?_, h4⟩
  simp [updateFile, h1, h2, h3, h4]

theorem updateFile_ok_renames {fixF decodeF : Img → Img} {rF : Img → Nat → Nat → Img}
    {eF : Img → Img} {m m₁ : TilesheetManager} {f : FsEntry}
    (h : updateFile fixF decodeF rF eF m f = .ok m₁) : m₁.renames = m.renames := by
  unfold updateFile at h
  by_cases h1 : !f.isFile
  · rw [if_pos h1] at h
    injection h with h
    subst h
    rfl
  rw [if_neg h1] at h
  by_cases h2 : f.ext ≠ "png"
  · rw [if_pos h2] at h
    injection h with h
    subst h
    rfl
  rw [if_neg h2] at h
  cases h3 : resolveName m.renames f.stem with
  | none =>
    simp only [h3] at h
    injection h with h
    subst h
    rfl
  | some name =>
    simp only [h3] at h
    by_cases h4 : illegalName name
    · rw [if_pos h4] at h
      exact absurd h (by simp)
    rw [if_neg h4] at h
    cases h5 : m.lookup name with
    | none => simp only [h5] at h; exact absurd h (by simp)
    | some r =>
      obtain ⟨pos, m'⟩ := r
      simp only [h5] at h
      cases h6 : insertAll rF eF m'.tilesheets pos (decodeF (fixF f.img)) with
      | none => simp only [h6] at h; exact absurd h (by simp)
      | some sheets =>
        simp only [h6] at h
        injection h with h
        subst h
        have hr := lookup_renames h5
        exact hr

theorem update_fatal {fixF decodeF : Img → Img} {rF : Img → Nat → Nat → Img}
    {eF : Img → Img} {files : List FsEntry} :
    ∀ {m : TilesheetManager}, (∃ f ∈ files, ProcessedIllegal m.renames f) →
    ∃ e, update fixF decodeF rF eF m files = .error e := by
  induction files with
  | nil =>
    intro m h
    obtain ⟨f, hf, _⟩ := h
    exact absurd hf (List.not_mem_nil f)
  | cons f fs ih =>
    intro m h
    cases hstep : updateFile fixF decodeF rF eF m f with
    | error e =>
      refine ⟨e, ?_⟩
      unfold update
      rw [hstep]
    | ok m₁ =>
      obtain ⟨f', hf', hpf'⟩ := h
      rcases List.mem_cons.mp hf' with he | hmem
      · subst he
        obtain ⟨n, he', -⟩ := @updateFile_illegal fixF decodeF rF eF m f' hpf'
        rw [hstep] at he'
        exact absurd he' (by simp)
      · obtain ⟨e, he⟩ := ih (m := m₁)
          ⟨f', hmem, by rw [updateFile_ok_renames hstep]; exact hpf'⟩
        refine ⟨e, ?_⟩
        unfold update
        rw [hstep]
        exact he

theorem import_tiles_fields {rows : List RemoteRow} :
    ∀ {m : TilesheetManager}, (import_tiles m rows).renames = m.renames ∧
      (import_tiles m rows).next = m.next ∧ (import_tiles m rows).deleted = m.deleted := by
  induction rows with
  | nil => intro m; exact ⟨rfl, rfl, rfl⟩
  | cons r rest ih => intro m; exact ih (m := importRow m r)

/-- Claim C7: a processed local file whose rename-resolved name contains
`'_'`, `'['` or `']'` makes the scan phase exit fatally with that name, makes
the compose phase exit fatally, and makes the whole run pipeline exit during
the scan with the allocator cursor still initial, no deletions recorded and
the tile table / position index exactly as imported — the name is never
silently coerced or skipped. -/
theorem claim_C7_illegal_name_fatal :
    (∀ (m : TilesheetManager) (files : List FsEntry),
      (∃ f ∈ files, ProcessedIllegal m.renames f) →
      ∃ n m', check_changes m files = .error (.illegalName n, m') ∧
        illegalName n = true ∧ SameCore m m') ∧
    (∀ (fixF decodeF : Img → Img) (rF : Img → Nat → Nat → Img) (eF : Img → Img)
      (m : TilesheetManager) (files : List FsEntry),
      (∃ f ∈ files, ProcessedIllegal m.renames f) →
      ∃ e, update fixF decodeF rF eF m files = .error e) ∧
    (∀ (renames : List (String × String)) (sheets : List Sheet) (rows : List RemoteRow)
      (files : List FsEntry) (confirmInput : String) (todelete : List String)
      (fixF decodeF : Img → Img) (rF : Img → Nat → Nat → Img) (eF : Img → Img),
      (∃ f ∈ files, ProcessedIllegal renames f) →
      ∃ n m', runPipeline renames sheets rows files confirmInput todelete
          fixF decodeF rF eF = .error (.illegalName n, m') ∧
        illegalName n = true ∧
        m'.next = { ring := 0, offset := 0, layer := 0 } ∧ m'.deleted = [] ∧
        m'.tiles = (import_tiles (initManager renames sheets) rows).tiles ∧
        m'.entries = (import_tiles (initManager renames sheets) rows).entries) := by
  refine ⟨?_, ?_, ?_⟩
  · intro m files h
    exact check_changes_illegal h
  · intro fixF decodeF rF eF m files h
    exact update_fatal h
  · intro renames sheets rows files confirmInput todelete fixF decodeF rF eF h
    have hren : (import_tiles (initManager renames sheets) rows).renames = renames :=
      import_tiles_fields.1
    obtain ⟨n, m', hcc, hn, hcore⟩ := check_changes_illegal
      (m := import_tiles (initManager renames sheets) rows)
      (by rw [hren]; exact h)
    refine ⟨n, m', ?_, hn, ?_, ?_, hcore.1, hcore.2.1⟩
    · simp only [runPipeline, hcc]
    · rw [hcore.2.2.1, import_tiles_fields.2.1]
      rfl
    · rw [hcore.2.2.2.1, import_tiles_fields.2.2]
      rfl

/-- Witness for C7: a run over a single local file `foo_bar.png` with no
rename entry. -/
theorem claim_C7_illegal_name_fatal_witness :
    (∃ n m', check_changes (initManager [] [])
        [{ stem := "foo_bar", ext := "png", isFile := true, img := blankImg 1 1 }] =
          .error (.illegalName n, m') ∧
      illegalName n = true ∧ SameCore (initManager [] []) m') ∧
    (∃ e, update (fun i => i) (fun i => i) (fun i _ _ => i) (fun i => i)
        (initManager [] [])
        [{ stem := "foo_bar", ext := "png", isFile := true, img := blankImg 1 1 }] =
          .error e) ∧
    (∃ n m', runPipeline [] [] []
        [{ stem := "foo_bar", ext := "png", isFile := true, img := blankImg 1 1 }]
        "continue" [] (fun i => i) (fun i => i) (fun i _ _ => i) (fun i => i) =
          .error (.illegalName n, m') ∧
      illegalName n = true ∧
      m'.next = { ring := 0, offset := 0, layer := 0 } ∧ m'.deleted = [] ∧
      m'.tiles = (import_tiles (initManager [] []) []).tiles ∧
      m'.entries = (import_tiles (initManager [] []) []).entries) := by
  have hmem : ∃ f ∈ [({ stem := "foo_bar", ext := "png", isFile := true, img := blankImg 1 1 } : FsEntry)], ProcessedIllegal [] f :=
    ⟨_, List.mem_singleton.mpr rfl, rfl, rfl, "foo_bar", rfl, by decide⟩
  exact ⟨claim_C7_illegal_name_fatal.1 (initManager [] []) _ hmem,
    claim_C7_illegal_name_fatal.2.1 _ _ _ _ (initManager [] []) _ hmem,
    claim_C7_illegal_name_fatal.2.2 [] [] [] _ "continue" [] _ _ _ _ hmem⟩

/-- Claim C8: the confirmation gate proceeds (and leaves the state untouched)
iff the input line, trimmed and lowercased, equals `"continue"`; any other
input aborts immediately, and the aborted run pipeline ends with no
deletions recorded, the allocator cursor still initial and the tile table /
position index exactly as imported. -/
theorem claim_C8_confirmation_gate :
    (∀ (m : TilesheetManager) (input : String),
      (confirm_changes m input = .ok m ↔ rustLower (rustTrim input) = "continue") ∧
      (rustLower (rustTrim input) ≠ "continue" →
        confirm_changes m input = .error (.aborted, m))) ∧
    (∀ (renames : List (String × String)) (sheets : List Sheet) (rows : List RemoteRow)
      (files : List FsEntry) (confirmInput : String) (todelete : List String)
      (fixF decodeF : Img → Img) (rF : Img → Nat → Nat → Img) (eF : Img → Img),
      rustLower (rustTrim confirmInput) ≠ "continue" →
      (∀ f ∈ files, ¬ ProcessedIllegal renames f) →
      ∃ m', runPipeline renames sheets rows files confirmInput todelete
          fixF decodeF rF eF = .error (.aborted, m') ∧
        m'.next = { ring := 0, offset := 0, layer := 0 } ∧ m'.deleted = [] ∧
        m'.tiles = (import_tiles (initManager renames sheets) rows).tiles ∧
        m'.entries = (import_tiles (initManager renames sheets) rows).entries) := by
  constructor
  · intro m input
    constructor
    · unfold confirm_changes
      by_cases hc : rustLower (rustTrim input) = "continue"
      · rw [if_neg (by simp [hc])]
        exact ⟨fun _ => hc, fun _ => rfl⟩
      · rw [if_pos hc]
        exact ⟨fun he => absurd he (by simp), fun he => absurd he hc⟩
    · intro hc
      unfold confirm_changes
      rw [if_pos hc]
  · intro renames sheets rows files confirmInput todelete fixF decodeF rF eF hc hnoill
    have hren : (import_tiles (initManager renames sheets) rows).renames = renames :=
      import_tiles_fields.1
    obtain ⟨m₁, hcc, hcore⟩ := check_changes_ok
      (m := import_tiles (initManager renames sheets) rows)
      (fun f hf => by rw [hren]; exact hnoill f hf)
    have hcf : confirm_changes m₁ confirmInput = .error (.aborted, m₁) := by
      unfold confirm_changes
      rw [if_pos hc]
    refine ⟨m₁, ?_, ?_, ?_, hcore.1, hcore.2.1⟩
    · simp only [runPipeline, hcc, hcf]
    · rw [hcore.2.2.1, import_tiles_fields.2.1]
      rfl
    · rw [hcore.2.2.2.1, import_tiles_fields.2.2]
      rfl

/-- Witness for C8: the inputs `" ConTinue "` (proceeds) and `"no"`
(aborts a run over an empty file list). -/
theorem claim_C8_confirmation_gate_witness :
    (confirm_changes (initManager [] []) " ConTinue " = .ok (initManager [] []) ↔
      rustLower (rustTrim " ConTinue ") = "continue") ∧
    confirm_changes (initManager [] []) "no" = .error (.aborted, initManager [] []) ∧
    (∃ m', runPipeline [] [] [] [] "no" [] (fun i => i) (fun i => i)
        (fun i _ _ => i) (fun i => i) = .error (.aborted, m') ∧
      m'.next = { ring := 0, offset := 0, layer := 0 } ∧ m'.deleted = [] ∧
      m'.tiles = (import_tiles (initManager [] []) []).tiles ∧
      m'.entries = (import_tiles (initManager [] []) []).entries) :=
  ⟨(claim_C8_confirmation_gate.1 (initManager [] []) " ConTinue ").1,
    (claim_C8_confirmation_gate.1 (initManager [] []) "no").2 (by decide),
    claim_C8_confirmation_gate.2 [] [] [] [] "no" [] (fun i => i) (fun i => i)
      (fun i _ _ => i) (fun i => i) (by decide)
      (fun f hf => absurd hf (List.not_mem_nil f))⟩

/-! ### `load_renames` behaviour (C10) -/

theorem splitLastEq_none : ∀ {cs : List Char}, (∀ c ∈ cs, c ≠ '=') →
    splitLastEq cs = none := by
  intro cs
  induction cs with
  | nil => intro _; rfl
  | cons c rest ih =>
    intro h
    simp only [splitLastEq, ih (fun c' hc' => h c' (List.mem_cons_of_mem _ hc'))]
    rw [if_neg (h c (List.mem_cons_self _ _))]

theorem splitLastEq_append : ∀ {cs a b : List Char}, splitLastEq cs = some (a, b) →
    cs = a ++ '=' :: b := by
  intro cs
  induction cs with
  | nil => intro a b h; exact absurd h (by simp [splitLastEq])
  | cons c rest ih =>
    intro a b h
    unfold splitLastEq at h
    cases hs : splitLastEq rest with
    | some ab =>
      obtain ⟨a', b'⟩ := ab
      rw [hs] at h
      simp only [Option.some.injEq, Prod.mk.injEq] at h
      obtain ⟨h1, h2⟩ := h
      subst h1
      subst h2
      show c :: rest = c :: (a' ++ '=' :: b')
      rw [ih hs]
    | none =>
      rw [hs] at h
      by_cases hc : c = '='
      · rw [if_pos hc] at h
        simp only [Option.some.injEq, Prod.mk.injEq] at h
        obtain ⟨h1, h2⟩ := h
        subst h1
        subst h2
        rw [hc]
        rfl
      · rw [if_neg hc] at h
        exact absurd h (by simp)

theorem rustCaptures_none {line : String} (h : ∀ c ∈ line.data, c ≠ '=') :
    rustCaptures line = none := by
  unfold rustCaptures
  rw [splitLastEq_none h]

theorem rustCaptures_some {line : String} {k v : String}
    (h : rustCaptures line = some (k, v)) : line = k ++ "=" ++ v := by
  unfold rustCaptures at h
  cases hs : splitLastEq line.data with
  | none => rw [hs] at h; exact absurd h (by simp)
  | some ab =>
    obtain ⟨a, b⟩ := ab
    rw [hs] at h
    simp only [Option.some.injEq, Prod.mk.injEq] at h
    obtain ⟨h1, h2⟩ := h
    subst h1
    subst h2
    apply String.ext
    have hd : (String.mk a ++ "=" ++ String.mk b).data = (a ++ ['=']) ++ b := rfl
    rw [hd, List.append_assoc]
    exact splitLastEq_append hs

theorem mem_of_mem_eraseKey [DecidableEq α] {k : α} {l : List (α × β)} {x : α × β}
    (h : x ∈ eraseKey k l) : x ∈ l := by
  induction l with
  | nil => simp [eraseKey] at h
  | cons kv rest ih =>
    unfold eraseKey at h
    by_cases hk : kv.1 = k
    · rw [if_pos hk] at h
      exact List.mem_cons_of_mem _ (ih h)
    · rw [if_neg hk] at h
      rcases List.mem_cons.mp h with he | hm
      · exact he ▸ List.mem_cons_self _ _
      · exact List.mem_cons_of_mem _ (ih hm)

theorem mem_of_mem_collectMap_aux {l : List (String × String)} :
    ∀ (acc : List (String × String)) {x : String × String},
    x ∈ l.foldl (fun acc kv => kv :: eraseKey kv.1 acc) acc → x ∈ acc ∨ x ∈ l := by
  induction l with
  | nil => intro acc x h; exact Or.inl h
  | cons kv rest ih =>
    intro acc x h
    rcases ih (kv :: eraseKey kv.1 acc) h with hm | hm
    · rcases List.mem_cons.mp hm with he | hm'
      · exact Or.inr (he ▸ List.mem_cons_self _ _)
      · exact Or.inl (mem_of_mem_eraseKey hm')
    · exact Or.inr (List.mem_cons_of_mem _ hm)

theorem mem_of_mem_collectMap {l : List (String × String)} {x : String × String}
    (h : x ∈ collectMap l) : x ∈ l := by
  rcases mem_of_mem_collectMap_aux [] h with hm | hm
  · exact absurd hm (List.not_mem_nil x)
  · exact hm

/-- Claim C10: a renames file that cannot be opened yields the empty map and
the run proceeds; a line without an `'='` does not match the `old=new`
pattern and contributes no mapping; and every mapping in the loaded map
comes from a line of the file that matches, whose text is exactly
`old ++ "=" ++ new`. -/
theorem claim_C10_load_renames :
    load_renames none = [] ∧
    (∀ line : String, (∀ c ∈ line.data, c ≠ '=') → rustCaptures line = none) ∧
    (∀ (s : String) (k v : String), (k, v) ∈ load_renames (some s) →
      ∃ line ∈ rustLines s, rustCaptures line = some (k, v) ∧ line = k ++ "=" ++ v) := by
  refine ⟨rfl, ?_, ?_⟩
  · intro line h
    exact rustCaptures_none h
  · intro s k v h
    have h' : (k, v) ∈ (rustLines s).filterMap rustCaptures := mem_of_mem_collectMap h
    obtain ⟨line, hline, hcap⟩ := List.mem_filterMap.mp h'
    exact ⟨line, hline, hcap, rustCaptures_some hcap⟩

/-- Witness for C10: a file whose second line `bad` has no `'='`. -/
theorem claim_C10_load_renames_witness :
    load_renames none = [] ∧
    rustCaptures "bad" = none ∧
    (∃ line ∈ rustLines "a=b\nbad", rustCaptures line = some ("a", "b") ∧
      line = "a" ++ "=" ++ "b") :=
  ⟨claim_C10_load_renames.1,
    claim_C10_load_renames.2.1 "bad" (by decide),
    claim_C10_load_renames.2.2 "a=b\nbad" "a" "b" (by decide)⟩

end FtbRs
